import Mathlib

/-!
Verification of the conntour-space-explorer backend core: the search ranking
pipeline (`search_service.py`), the history store (`history_service.py`,
`infra/db.py`) and catalog construction (`infra/db.py`, `embedding_utils.py`).

Modelling conventions:
* Python floats are modelled by `ℚ` (exact arithmetic).
* A Python exception escaping a function is modelled by `none` / `Except.error`.
* Embedding vectors are opaque data (`Emb`); the external CLIP model and the
  similarity-plus-rounding step are parameters, since the spec treats the
  embedding generator as an opaque external capability.
-/

namespace Conntour

/-- An embedding vector (numpy array / torch tensor), modelled as a list of
rationals. -/
abbrev Emb := List ℚ

/-- The `Source` pydantic model (`models.py`). -/
structure Source where
  id : ℕ
  name : String
  type : String
  launch_date : String
  description : String
  image_url : Option String
  status : String
  deriving Repr, DecidableEq

/-- The `SearchResult` pydantic model: `Source` plus a confidence score. -/
structure SearchResult extends Source where
  confidence : ℚ
  deriving Repr, DecidableEq

/-- Python `min` over a non-empty list `c :: cs`, via `foldl`. -/
def listMin (c : ℚ) (cs : List ℚ) : ℚ := cs.foldl min c

/-- Python `max` over a non-empty list `c :: cs`, via `foldl`. -/
def listMax (c : ℚ) (cs : List ℚ) : ℚ := cs.foldl max c

/-- The minimum confidence over a pool of results (0 for the empty pool, which
the code never reaches without raising). Used to state properties of
normalization. -/
def poolMin : List SearchResult → ℚ
  | [] => 0
  | r :: rs => listMin r.confidence (rs.map (fun x => x.confidence))

/-- The maximum confidence over a pool of results. -/
def poolMax : List SearchResult → ℚ
  | [] => 0
  | r :: rs => listMax r.confidence (rs.map (fun x => x.confidence))

/-- Embeds `normalize_results` (`search_service.py`, lines 15-48).  Each score
is rescaled by `0.2 + 0.8 * (s - min) / range`; if the range is exactly `0`
every result gets `0.6`.  Python `min`/`max` raise `ValueError` on an empty
list and `search` does not catch it; that exception is modelled by `none`. -/
def normalize_results (results : List SearchResult) : Option (List SearchResult) :=
  match results.map (fun r => r.confidence) with
  | [] => none
  | c :: cs =>
    let min_confidence := listMin c cs
    let max_confidence := listMax c cs
    let confidence_range := max_confidence - min_confidence
    some (results.map (fun result =>
      if confidence_range = 0 then { result with confidence := 3/5 }
      else { result with confidence :=
        1/5 + 4/5 * ((result.confidence - min_confidence) / confidence_range) }))

/-- The rescaling map applied by `normalize_results` in the nonzero-range
branch, as a function of the raw score. -/
def scaleConf (mn mx s : ℚ) : ℚ := 1/5 + 4/5 * ((s - mn) / (mx - mn))

/-- A result with its confidence replaced by the rescaled score. -/
def scaleResult (mn mx : ℚ) (x : SearchResult) : SearchResult :=
  { x with confidence := scaleConf mn mx x.confidence }

/-- The pool with every confidence rescaled by `scaleConf` over the pool
minimum and maximum — the output the spec formula prescribes for a
nonzero-range pool. -/
def scaledPool (r : SearchResult) (rs : List SearchResult) : List SearchResult :=
  (r :: rs).map (scaleResult (poolMin (r :: rs)) (poolMax (r :: rs)))

/-- A helper to build a `SearchResult` with only the fields that matter for
normalization: a catalog id and a confidence. -/
def mkSR (i : ℕ) (c : ℚ) : SearchResult :=
  { id := i, name := "", type := "", launch_date := "", description := "",
    image_url := none, status := "", confidence := c }

/-- One step of a stable descending insertion: `x` is placed before the first
element whose key is strictly smaller, hence after every element with an equal
or larger key.  Folding this over a list from the left yields exactly a stable
descending sort, which is the guaranteed behaviour of Python `list.sort` /
`sorted` with `reverse=True`. -/
def insDesc {α K : Type} [LinearOrder K] (key : α → K) (x : α) : List α → List α
  | [] => [x]
  | y :: ys => if key y < key x then x :: y :: ys else y :: insDesc key x ys

/-- Stable descending sort by `key`: the model of Python `list.sort(key=...,
reverse=True)` and `sorted(..., key=..., reverse=True)`, which are stable. -/
def stableSortDesc {α K : Type} [LinearOrder K] (key : α → K) (l : List α) : List α :=
  l.foldl (fun acc x => insDesc key x acc) []

/-- A catalog entry as held in `SpaceDB._sources`: the source fields together
with the value stored under the embedding key. -/
structure SourceE where
  src : Source
  embedding : Option Emb
  deriving Repr, DecidableEq

/-- Embeds `calculate_similarity_for_one_source` (`search_service.py`).  The
external CLIP similarity together with the `round(score * 100, 2)` step is the
opaque parameter `conf`, applied to the stored embedding. -/
def calculate_similarity_for_one_source (conf : Emb → ℚ) (s : SourceE) (e : Emb) :
    SearchResult :=
  { toSource := s.src, confidence := conf e }

/-- The candidate pool built by `SearchService.search` (lines 111-122): every
source whose stored embedding is not `None` is scored. -/
def searchCandidates (conf : Emb → ℚ) (sources : List SourceE) : List SearchResult :=
  sources.filterMap (fun s =>
    s.embedding.map (fun e => calculate_similarity_for_one_source conf s e))

/-- The blank-query guard of `SearchService.search` (line 103):
`if not query or not query.strip()`.  A stripped string is empty exactly when
every character of the original is whitespace, which is how the second test is
rendered here. -/
def queryIsBlank (query : String) : Bool :=
  query = "" || query.toList.all (fun c => c.isWhitespace)

/-- Embeds `SearchService.search` (`search_service.py`, lines 90-132), with the
external text encoding and similarity scoring abstracted into `conf`.  The
candidate pool is normalized, sorted by confidence descending with the stable
in-place sort, and truncated to `limit`.  `none` models the `ValueError`
escaping from `normalize_results` on an empty candidate pool. -/
def search (conf : Emb → ℚ) (sources : List SourceE) (query : String) (limit : ℕ) :
    Option (List SearchResult) :=
  if queryIsBlank query then some []
  else
    (normalize_results (searchCandidates conf sources)).map (fun nr =>
      (stableSortDesc (fun x => x.confidence) nr).take limit)

/-- The `SearchResultHistory` pydantic model as actually populated by
`HistoryService.add_search_result_history`: the stored entries are the
`(id, confidence)` pairs of the results. -/
structure SearchResultHistory where
  id : String
  query : String
  time_searched : String
  all_search_results : List (ℕ × ℚ)
  deriving Repr, DecidableEq

/-- The `SearchResultHistoryResponse` pydantic model. -/
structure SearchResultHistoryResponse where
  id : String
  query : String
  time_searched : String
  top_three_images : List SearchResult
  deriving Repr, DecidableEq

/-- The `HistoryResponse` pydantic model. -/
structure HistoryResponse where
  items : List SearchResultHistoryResponse
  total : ℕ
  deriving Repr, DecidableEq

/-- Embeds `HistoryService.add_search_result_history` (lines 22-45) composed
with `SpaceDB.add_search_result_history` (an append).  The fresh uuid and the
current UTC timestamp are environment inputs, passed as parameters. -/
def add_search_result_history (store : List SearchResultHistory)
    (fresh_id now query : String) (final_results : List SearchResult) :
    List SearchResultHistory :=
  store ++ [{ id := fresh_id, query := query, time_searched := now,
              all_search_results :=
                final_results.map (fun r => (r.id, r.confidence)) }]

/-- Modelled from the spec: `Catalog.GetByIds` (spec section 4.1).  The method
`get_sources_by_ids` is called by `HistoryService._reconstruct_search_results`
but is absent from the `SpaceDB` class in `src`; only the test double
implements it.  Per the spec, ids not found are simply absent from the result
map (no error); the map is represented by first-match lookup in the catalog
list, whose ids are unique by construction. -/
def get_source_by_id (catalog : List Source) (i : ℕ) : Option Source :=
  catalog.find? (fun s => s.id = i)

/-- Embeds `HistoryService._reconstruct_search_results` (lines 97-142): each
stored `(id, confidence)` pair is resolved against the catalog; pairs whose id
does not resolve are skipped, preserving the order of the rest. -/
def reconstruct_search_results (catalog : List Source) (data : List (ℕ × ℚ)) :
    List SearchResult :=
  data.filterMap (fun p =>
    (get_source_by_id catalog p.1).map (fun s => { toSource := s, confidence := p.2 }))

/-- Embeds `HistoryService.create_search_results_history_response`
(lines 76-95): the first three stored pairs are reconstructed. -/
def create_search_results_history_response (catalog : List Source)
    (h : SearchResultHistory) : SearchResultHistoryResponse :=
  { id := h.id, query := h.query, time_searched := h.time_searched,
    top_three_images := reconstruct_search_results catalog (h.all_search_results.take 3) }

/-- Embeds `HistoryService.get_history` (lines 47-74): build the responses,
sort by `time_searched` descending (Python `sorted` with `reverse=True`, a
stable sort on the timestamp strings), then slice
`[start_index : start_index + limit]`. -/
def get_history (catalog : List Source) (store : List SearchResultHistory)
    (start_index limit : ℕ) : HistoryResponse :=
  let all_history_responses := store.map (create_search_results_history_response catalog)
  let sorted_history := stableSortDesc (fun x => x.time_searched) all_history_responses
  { items := (sorted_history.drop start_index).take limit, total := store.length }

/-- Embeds `HistoryService.get_history_results` (lines 144-168): linear search
for the record id; `Except.error` models the raised `ValueError` when no record
matches. -/
def get_history_results (catalog : List Source) (store : List SearchResultHistory)
    (history_id : String) : Except String (List SearchResult) :=
  match store.find? (fun item => item.id = history_id) with
  | some item => Except.ok (reconstruct_search_results catalog item.all_search_results)
  | none => Except.error ("History item with ID " ++ history_id ++ " not found")

/-- Embeds `SpaceDB.delete_search_result_history` (`infra/db.py`, lines
117-136), which `HistoryService.delete_history_item` returns unchanged: keep
the records with a different id and report whether the list shrank. -/
def delete_search_result_history (store : List SearchResultHistory)
    (history_id : String) : List SearchResultHistory × Bool :=
  let remaining := store.filter (fun item => item.id ≠ history_id)
  (remaining, decide (remaining.length < store.length))

/-- A typed link of a raw feed item (`item["links"]` entries). -/
structure RawLink where
  render : Option String
  href : Option String
  deriving Repr, DecidableEq

/-- A raw feed item as consumed by `SpaceDB.process_one_source`: the fields of
`item.get("data", [{}])[0]` plus the links list. -/
structure RawItem where
  title : Option String
  description : Option String
  media_type : Option String
  date_created : Option String
  links : List RawLink
  deriving Repr, DecidableEq

/-- The image-url selection loop of `process_one_source` (lines 73-77): the
href of the first link whose render field is "image", else `None`. -/
def find_image_url (links : List RawLink) : Option String :=
  match links.find? (fun l => l.render = some "image") with
  | some l => l.href
  | none => none

/-- Embeds `get_embedding_from_image_url` (`embedding_utils.py`, lines 17-42).
`requests.get(None)` raises immediately when the item has no image url, and a
network or decode failure raises from inside `requests`/`PIL`; the function
has no handler, so both surface as `Except.error`.  The external download plus
CLIP encoding of a present url is the parameter `fetch`. -/
def get_embedding_from_image_url (fetch : String → Except Unit Emb)
    (image_url : Option String) : Except Unit Emb :=
  match image_url with
  | none => Except.error ()
  | some url => fetch url

/-- Embeds `get_image_embedding` (`embedding_utils.py`, lines 158-186): a cache
hit returns the stored vector, otherwise the embedding is generated from the
image url; there is no exception handling on the generation path. -/
def get_image_embedding (fetch : String → Except Unit Emb)
    (cached_embeddings : List (ℕ × Emb)) (idx : ℕ) (image_url : Option String) :
    Except Unit Emb :=
  match cached_embeddings.find? (fun p => p.1 = idx) with
  | some p => Except.ok p.2
  | none => get_embedding_from_image_url fetch image_url

/-- Embeds `SpaceDB.process_one_source` (`infra/db.py`, lines 56-92): extract
the image url and metadata defaults and attach the generated embedding.  An
embedding failure propagates (there is no try/except on this path). -/
def process_one_source (fetch : String → Except Unit Emb)
    (cached_embeddings : List (ℕ × Emb)) (idx : ℕ) (item : RawItem) :
    Except Unit SourceE := do
  let image_url := find_image_url item.links
  let embedding ← get_image_embedding fetch cached_embeddings idx image_url
  pure { src := { id := idx,
                  name := item.title.getD ("NASA Item " ++ toString idx),
                  type := item.media_type.getD "unknown",
                  launch_date := item.date_created.getD "",
                  description := item.description.getD "",
                  image_url := image_url,
                  status := "Active" },
         embedding := some embedding }

/-- The source-processing loop of `SpaceDB.__init__` (lines 43-45), with
1-based enumeration, starting at index `idx`.  A failure in any item aborts
the whole construction, because nothing catches it. -/
def build_sources_from (fetch : String → Except Unit Emb)
    (cached_embeddings : List (ℕ × Emb)) (idx : ℕ) :
    List RawItem → Except Unit (List SourceE)
  | [] => Except.ok []
  | item :: rest => do
    let s ← process_one_source fetch cached_embeddings idx item
    let srest ← build_sources_from fetch cached_embeddings (idx + 1) rest
    pure (s :: srest)

/-- Catalog construction over the full feed (`enumerate(..., start=1)`). -/
def build_sources (fetch : String → Except Unit Emb)
    (cached_embeddings : List (ℕ × Emb)) (items : List RawItem) :
    Except Unit (List SourceE) :=
  build_sources_from fetch cached_embeddings 1 items

/-- Embeds `SpaceDB.get_all_sources`: every stored source, embedding dropped. -/
def get_all_sources (sources : List SourceE) : List Source :=
  sources.map (fun s => s.src)

/-- A raw feed item carrying an image link to the given url. -/
def rawWithImage (url : String) : RawItem :=
  { title := some "t", description := some "d", media_type := some "image",
    date_created := some "2020", links := [{ render := some "image", href := some url }] }

/-- A raw feed item with no image link at all. -/
def rawNoImage : RawItem :=
  { title := some "t", description := some "d", media_type := some "image",
    date_created := some "2020", links := [] }

/-- A feed of five items in which the third has no image link, so its
embedding generation fails (`requests.get(None)` raises). -/
def rawItemsFive : List RawItem :=
  [rawWithImage "u1", rawWithImage "u2", rawNoImage, rawWithImage "u4", rawWithImage "u5"]

/-- A fetch function for which every actual download succeeds; only the
missing-url item can fail. -/
def fetchOk : String → Except Unit Emb := fun _ => Except.ok [1]

/-- A minimal source with the given catalog id, for concrete instances. -/
def wSrc (i : ℕ) : Source :=
  { id := i, name := "", type := "", launch_date := "", description := "",
    image_url := none, status := "" }

/-- A catalog entry with the given id and stored embedding. -/
def wSE (i : ℕ) (e : Emb) : SourceE :=
  { src := wSrc i, embedding := some e }

/-- A concrete similarity scorer: the first coordinate of the embedding. -/
def wConf : Emb → ℚ := fun e => e.headD 0

/-- A catalog entry with no embedding value stored. -/
def sourceNoEmb : SourceE :=
  { src := { id := 1, name := "n", type := "image", launch_date := "", description := "",
             image_url := none, status := "Active" },
    embedding := none }

/-- A history record inserted first, with the same timestamp as `recB`. -/
def recA : SearchResultHistory :=
  { id := "a", query := "q1", time_searched := "2024-01-01T00:00:00Z",
    all_search_results := [] }

/-- A history record inserted second, with the same timestamp as `recA`. -/
def recB : SearchResultHistory :=
  { id := "b", query := "q2", time_searched := "2024-01-01T00:00:00Z",
    all_search_results := [] }

/-- An insertion numbering for the two-record store `[recA, recB]`. -/
def wNum : SearchResultHistoryResponse → ℕ :=
  fun resp => if resp.id = "a" then 0 else 1

/-- A two-item catalog holding only ids 1 and 3, so id 2 does not resolve. -/
def wCatalog : List Source := [wSrc 1, wSrc 3]

/-! ### Helper lemmas: folded minima and maxima -/

theorem listMin_le_init (c : ℚ) (cs : List ℚ) : listMin c cs ≤ c := by
  induction cs generalizing c with
  | nil => simp [listMin]
  | cons d cs ih =>
    have h : listMin c (d :: cs) = listMin (min c d) cs := rfl
    rw [h]
    exact le_trans (ih (min c d)) (min_le_left _ _)

theorem listMin_le (c : ℚ) (cs : List ℚ) : ∀ x ∈ c :: cs, listMin c cs ≤ x := by
  induction cs generalizing c with
  | nil =>
    intro x hx
    rw [List.mem_singleton] at hx
    simp [listMin, hx]
  | cons d cs ih =>
    intro x hx
    have h : listMin c (d :: cs) = listMin (min c d) cs := rfl
    rw [h]
    rcases List.mem_cons.mp hx with rfl | hx'
    · exact le_trans (listMin_le_init _ _) (min_le_left _ _)
    · rcases List.mem_cons.mp hx' with rfl | hx''
      · exact le_trans (listMin_le_init _ _) (min_le_right _ _)
      · exact ih (min c d) x (List.mem_cons_of_mem _ hx'')

theorem listMin_mem (c : ℚ) (cs : List ℚ) : listMin c cs ∈ c :: cs := by
  induction cs generalizing c with
  | nil => simp [listMin]
  | cons d cs ih =>
    have h : listMin c (d :: cs) = listMin (min c d) cs := rfl
    rw [h]
    rcases List.mem_cons.mp (ih (min c d)) with h1 | h1
    · rcases min_choice c d with h2 | h2 <;> rw [h1, h2] <;> simp
    · simp [h1]

theorem init_le_listMax (c : ℚ) (cs : List ℚ) : c ≤ listMax c cs := by
  induction cs generalizing c with
  | nil => simp [listMax]
  | cons d cs ih =>
    have h : listMax c (d :: cs) = listMax (max c d) cs := rfl
    rw [h]
    exact le_trans (le_max_left _ _) (ih (max c d))

theorem le_listMax (c : ℚ) (cs : List ℚ) : ∀ x ∈ c :: cs, x ≤ listMax c cs := by
  induction cs generalizing c with
  | nil =>
    intro x hx
    rw [List.mem_singleton] at hx
    simp [listMax, hx]
  | cons d cs ih =>
    intro x hx
    have h : listMax c (d :: cs) = listMax (max c d) cs := rfl
    rw [h]
    rcases List.mem_cons.mp hx with rfl | hx'
    · exact le_trans (le_max_left _ _) (init_le_listMax _ _)
    · rcases List.mem_cons.mp hx' with rfl | hx''
      · exact le_trans (le_max_right _ _) (init_le_listMax _ _)
      · exact ih (max c d) x (List.mem_cons_of_mem _ hx'')

theorem listMax_mem (c : ℚ) (cs : List ℚ) : listMax c cs ∈ c :: cs := by
  induction cs generalizing c with
  | nil => simp [listMax]
  | cons d cs ih =>
    have h : listMax c (d :: cs) = listMax (max c d) cs := rfl
    rw [h]
    rcases List.mem_cons.mp (ih (max c d)) with h1 | h1
    · rcases max_choice c d with h2 | h2 <;> rw [h1, h2] <;> simp
    · simp [h1]

theorem poolMin_le (r : SearchResult) (rs : List SearchResult) :
    ∀ x ∈ r :: rs, poolMin (r :: rs) ≤ x.confidence := by
  intro x hx
  apply listMin_le
  rcases List.mem_cons.mp hx with rfl | hx'
  · exact List.mem_cons_self _ _
  · exact List.mem_cons_of_mem _ (List.mem_map.mpr ⟨x, hx', rfl⟩)

theorem le_poolMax (r : SearchResult) (rs : List SearchResult) :
    ∀ x ∈ r :: rs, x.confidence ≤ poolMax (r :: rs) := by
  intro x hx
  apply le_listMax
  rcases List.mem_cons.mp hx with rfl | hx'
  · exact List.mem_cons_self _ _
  · exact List.mem_cons_of_mem _ (List.mem_map.mpr ⟨x, hx', rfl⟩)

theorem poolMin_attained (r : SearchResult) (rs : List SearchResult) :
    ∃ x ∈ r :: rs, x.confidence = poolMin (r :: rs) := by
  rcases List.mem_cons.mp (listMin_mem r.confidence (rs.map (fun x => x.confidence))) with h | h
  · exact ⟨r, List.mem_cons_self _ _, h.symm⟩
  · rcases List.mem_map.mp h with ⟨x, hx, hx2⟩
    exact ⟨x, List.mem_cons_of_mem _ hx, hx2⟩

theorem poolMax_attained (r : SearchResult) (rs : List SearchResult) :
    ∃ x ∈ r :: rs, x.confidence = poolMax (r :: rs) := by
  rcases List.mem_cons.mp (listMax_mem r.confidence (rs.map (fun x => x.confidence))) with h | h
  · exact ⟨r, List.mem_cons_self _ _, h.symm⟩
  · rcases List.mem_map.mp h with ⟨x, hx, hx2⟩
    exact ⟨x, List.mem_cons_of_mem _ hx, hx2⟩

/-- Unfolding of `normalize_results` on a non-empty pool, stated through
`poolMin`/`poolMax`. -/
theorem normalize_results_cons (r : SearchResult) (rs : List SearchResult) :
    normalize_results (r :: rs) =
      some ((r :: rs).map (fun result =>
        if poolMax (r :: rs) - poolMin (r :: rs) = 0 then { result with confidence := 3/5 }
        else { result with confidence :=
          1/5 + 4/5 * ((result.confidence - poolMin (r :: rs)) /
            (poolMax (r :: rs) - poolMin (r :: rs))) })) := rfl

/-! ### Helper lemmas: the stable descending sort -/

theorem mem_insDesc {α K : Type} [LinearOrder K] (key : α → K) (x : α) (l : List α)
    (a : α) : a ∈ insDesc key x l ↔ a = x ∨ a ∈ l := by
  induction l with
  | nil => simp [insDesc]
  | cons y ys ih =>
    by_cases h : key y < key x
    · simp [insDesc, h]
    · simp [insDesc, h, ih]
      tauto

theorem length_insDesc {α K : Type} [LinearOrder K] (key : α → K) (x : α) (l : List α) :
    (insDesc key x l).length = l.length + 1 := by
  induction l with
  | nil => simp [insDesc]
  | cons y ys ih =>
    by_cases h : key y < key x <;> simp [insDesc, h, ih]

theorem length_foldl_insDesc {α K : Type} [LinearOrder K] (key : α → K) :
    ∀ (l acc : List α),
      (l.foldl (fun acc x => insDesc key x acc) acc).length = acc.length + l.length
  | [], acc => by simp
  | x :: xs, acc => by
    rw [List.foldl_cons, length_foldl_insDesc key xs, length_insDesc]
    simp only [List.length_cons]
    omega

theorem length_stableSortDesc {α K : Type} [LinearOrder K] (key : α → K) (l : List α) :
    (stableSortDesc key l).length = l.length := by
  have h := length_foldl_insDesc key l []
  simpa [stableSortDesc] using h

/-- The ordering a stable descending sort establishes: later elements have a
strictly smaller key, or an equal key and a larger insertion number `idx`. -/
def sortedRel {α K : Type} (key : α → K) (idx : α → ℕ) [LinearOrder K] (a b : α) :
    Prop :=
  key b < key a ∨ (key a = key b ∧ idx a < idx b)

theorem insDesc_pairwise {α K : Type} [LinearOrder K] (key : α → K) (idx : α → ℕ)
    (x : α) (l : List α) (hl : l.Pairwise (sortedRel key idx))
    (hx : ∀ y ∈ l, idx y < idx x) :
    (insDesc key x l).Pairwise (sortedRel key idx) := by
  induction l with
  | nil => exact List.pairwise_singleton _ _
  | cons y ys ih =>
    obtain ⟨hy, hys⟩ := List.pairwise_cons.mp hl
    by_cases h : key y < key x
    · simp only [insDesc, if_pos h]
      refine List.Pairwise.cons ?_ hl
      intro z hz
      rcases List.mem_cons.mp hz with rfl | hz'
      · exact Or.inl h
      · rcases hy z hz' with h2 | h2
        · exact Or.inl (lt_trans h2 h)
        · exact Or.inl (lt_of_le_of_lt (le_of_eq h2.1.symm) h)
    · simp only [insDesc, if_neg h]
      refine List.Pairwise.cons ?_
        (ih hys (fun z hz => hx z (List.mem_cons_of_mem _ hz)))
      intro z hz
      rcases (mem_insDesc key x ys z).mp hz with rfl | hz'
      · rcases lt_or_eq_of_le (le_of_not_lt h) with hlt | heq
        · exact Or.inl hlt
        · exact Or.inr ⟨heq.symm, hx y (List.mem_cons_self _ _)⟩
      · exact hy z hz'

theorem foldl_insDesc_pairwise {α K : Type} [LinearOrder K] (key : α → K)
    (idx : α → ℕ) :
    ∀ (l acc : List α), acc.Pairwise (sortedRel key idx) →
      (∀ a ∈ acc, ∀ b ∈ l, idx a < idx b) →
      l.Pairwise (fun a b => idx a < idx b) →
      (l.foldl (fun acc x => insDesc key x acc) acc).Pairwise (sortedRel key idx)
  | [], acc, hacc, _, _ => hacc
  | x :: xs, acc, hacc, hcross, hl => by
    obtain ⟨hx, hxs⟩ := List.pairwise_cons.mp hl
    rw [List.foldl_cons]
    apply foldl_insDesc_pairwise key idx xs (insDesc key x acc)
    · exact insDesc_pairwise key idx x acc hacc
        (fun y hy => hcross y hy x (List.mem_cons_self _ _))
    · intro a ha b hb
      rcases (mem_insDesc key x acc a).mp ha with rfl | ha'
      · exact hx b hb
      · exact hcross a ha' b (List.mem_cons_of_mem _ hb)
    · exact hxs

/-- The central property of the stable descending sort: if the input list is
strictly increasing in the numbering `idx`, the output is pairwise ordered by
descending key, with key ties resolved by ascending `idx` — i.e. ties keep
their input order. -/
theorem stableSortDesc_pairwise {α K : Type} [LinearOrder K] (key : α → K)
    (idx : α → ℕ) (l : List α) (hl : l.Pairwise (fun a b => idx a < idx b)) :
    (stableSortDesc key l).Pairwise (sortedRel key idx) := by
  apply foldl_insDesc_pairwise key idx l []
  · exact List.Pairwise.nil
  · intro a ha
    exact absurd ha (List.not_mem_nil a)
  · exact hl

/-! ### Normalization: helper lemmas about the rescaling -/

theorem scaleConf_bounds (mn mx s : ℚ) (hlt : mn < mx) (h1 : mn ≤ s) (h2 : s ≤ mx) :
    1/5 ≤ scaleConf mn mx s ∧ scaleConf mn mx s ≤ 1 := by
  have hpos : 0 < mx - mn := sub_pos.mpr hlt
  have ht0 : 0 ≤ (s - mn) / (mx - mn) := div_nonneg (by linarith) (le_of_lt hpos)
  have ht1 : (s - mn) / (mx - mn) ≤ 1 := (div_le_one hpos).mpr (by linarith)
  unfold scaleConf
  constructor <;> linarith

theorem scaleConf_at_min (mn mx : ℚ) : scaleConf mn mx mn = 1/5 := by
  simp [scaleConf]

theorem scaleConf_at_max (mn mx : ℚ) (hne : mx - mn ≠ 0) : scaleConf mn mx mx = 1 := by
  unfold scaleConf
  rw [div_self hne]
  norm_num

theorem scaleConf_lt_iff (mn mx : ℚ) (hlt : mn < mx) (s t : ℚ) :
    scaleConf mn mx s < scaleConf mn mx t ↔ s < t := by
  have hpos : 0 < mx - mn := sub_pos.mpr hlt
  unfold scaleConf
  rw [add_lt_add_iff_left, mul_lt_mul_left (by norm_num : (0:ℚ) < 4/5),
    div_lt_div_iff_of_pos_right hpos, sub_lt_sub_iff_right]

/-- On a pool with nonzero range, `normalize_results` returns exactly the
rescaled pool. -/
theorem normalize_results_scaled (r : SearchResult) (rs : List SearchResult)
    (hne : poolMax (r :: rs) - poolMin (r :: rs) ≠ 0) :
    normalize_results (r :: rs) = some (scaledPool r rs) := by
  rw [normalize_results_cons]
  simp only [if_neg hne]
  rfl

/-- The strict inequality between pool extrema that at least two distinct
values force. -/
theorem poolMin_lt_poolMax (r : SearchResult) (rs : List SearchResult)
    (hdist : ∃ a ∈ r :: rs, ∃ b ∈ r :: rs, a.confidence ≠ b.confidence) :
    poolMin (r :: rs) < poolMax (r :: rs) := by
  obtain ⟨a, ha, b, hb, hne⟩ := hdist
  have hle : poolMin (r :: rs) ≤ poolMax (r :: rs) :=
    le_trans (poolMin_le r rs r (List.mem_cons_self _ _))
      (le_poolMax r rs r (List.mem_cons_self _ _))
  rcases lt_or_eq_of_le hle with hlt | heq
  · exact hlt
  · exfalso
    apply hne
    have hall : ∀ x ∈ r :: rs, x.confidence = poolMin (r :: rs) := by
      intro x hx
      exact le_antisymm (heq ▸ le_poolMax r rs x hx) (poolMin_le r rs x hx)
    rw [hall a ha, hall b hb]

/-- C1: for every candidate pool passed to normalization holding at least two
distinct raw similarity values, every output confidence equals
`0.2 + 0.8 * (s - min) / (max - min)` with the minimum and maximum taken over
the whole pool; consequently the minimum output confidence is exactly `0.2`,
the maximum is exactly `1.0`, and every output confidence lies in
`[0.2, 1.0]`. -/
theorem normalize_results_two_distinct (r : SearchResult) (rs : List SearchResult)
    (hdist : ∃ a ∈ r :: rs, ∃ b ∈ r :: rs, a.confidence ≠ b.confidence) :
    normalize_results (r :: rs) = some (scaledPool r rs) ∧
    (∀ y ∈ scaledPool r rs, 1/5 ≤ y.confidence ∧ y.confidence ≤ 1) ∧
    (∃ y ∈ scaledPool r rs, y.confidence = 1/5) ∧
    (∃ y ∈ scaledPool r rs, y.confidence = 1) := by
  have hlt := poolMin_lt_poolMax r rs hdist
  have hne : poolMax (r :: rs) - poolMin (r :: rs) ≠ 0 :=
    sub_ne_zero_of_ne (ne_of_gt hlt)
  refine ⟨normalize_results_scaled r rs hne, ?_, ?_, ?_⟩
  · intro y hy
    obtain ⟨x, hx, hxe⟩ := List.mem_map.mp hy
    have hc : y.confidence =
        scaleConf (poolMin (r :: rs)) (poolMax (r :: rs)) x.confidence := by
      rw [← hxe]; rfl
    rw [hc]
    exact scaleConf_bounds _ _ _ hlt (poolMin_le r rs x hx) (le_poolMax r rs x hx)
  · obtain ⟨x, hx, hxe⟩ := poolMin_attained r rs
    refine ⟨scaleResult (poolMin (r :: rs)) (poolMax (r :: rs)) x,
      List.mem_map.mpr ⟨x, hx, rfl⟩, ?_⟩
    have hc : (scaleResult (poolMin (r :: rs)) (poolMax (r :: rs)) x).confidence =
        scaleConf (poolMin (r :: rs)) (poolMax (r :: rs)) x.confidence := rfl
    rw [hc, hxe, scaleConf_at_min]
  · obtain ⟨x, hx, hxe⟩ := poolMax_attained r rs
    refine ⟨scaleResult (poolMin (r :: rs)) (poolMax (r :: rs)) x,
      List.mem_map.mpr ⟨x, hx, rfl⟩, ?_⟩
    have hc : (scaleResult (poolMin (r :: rs)) (poolMax (r :: rs)) x).confidence =
        scaleConf (poolMin (r :: rs)) (poolMax (r :: rs)) x.confidence := rfl
    rw [hc, hxe, scaleConf_at_max _ _ hne]

/-- C1 witness: a concrete two-element pool with distinct raw scores `0` and
`1`, whose normalization maps them to exactly `0.2` and `1.0`. -/
theorem normalize_results_two_distinct_witness :
    (∃ a ∈ [mkSR 1 0, mkSR 2 1], ∃ b ∈ [mkSR 1 0, mkSR 2 1],
      a.confidence ≠ b.confidence) ∧
    normalize_results [mkSR 1 0, mkSR 2 1] = some [mkSR 1 (1/5), mkSR 2 1] := by
  refine ⟨by decide, ?_⟩
  have h := (normalize_results_two_distinct (mkSR 1 0) [mkSR 2 1] (by decide)).1
  rw [h]
  norm_num [scaledPool, scaleResult, scaleConf, poolMin, poolMax, listMin, listMax,
    mkSR]

/-- C3 counterexample: a two-element pool with raw scores `0` and `1/20000`.
Its range `1/20000` is positive yet below the `1e-4` epsilon the claim sets,
but `normalize_results` min-max scales it (to `0.2` and `1.0`) instead of
assigning the flat `0.6`: the code tests `confidence_range == 0` exactly, not
an epsilon. -/
theorem normalize_results_epsilon_counterexample :
    (0 : ℚ) < poolMax [mkSR 1 0, mkSR 2 (1/20000)] -
      poolMin [mkSR 1 0, mkSR 2 (1/20000)] ∧
    poolMax [mkSR 1 0, mkSR 2 (1/20000)] -
      poolMin [mkSR 1 0, mkSR 2 (1/20000)] < 1/10000 ∧
    normalize_results [mkSR 1 0, mkSR 2 (1/20000)] =
      some [mkSR 1 (1/5), mkSR 2 1] ∧
    ∃ y ∈ (normalize_results [mkSR 1 0, mkSR 2 (1/20000)]).getD [],
      y.confidence ≠ 3/5 := by
  have hmn : poolMin [mkSR 1 0, mkSR 2 (1/20000)] = 0 := by
    norm_num [poolMin, listMin, mkSR]
  have hmx : poolMax [mkSR 1 0, mkSR 2 (1/20000)] = 1/20000 := by
    norm_num [poolMax, listMax, mkSR]
  have hne : poolMax [mkSR 1 0, mkSR 2 (1/20000)] -
      poolMin [mkSR 1 0, mkSR 2 (1/20000)] ≠ 0 := by
    rw [hmn, hmx]; norm_num
  have hval : normalize_results [mkSR 1 0, mkSR 2 (1/20000)] =
      some [mkSR 1 (1/5), mkSR 2 1] := by
    rw [normalize_results_scaled (mkSR 1 0) [mkSR 2 (1/20000)] hne]
    simp only [scaledPool, scaleResult, scaleConf, hmn, hmx, List.map_cons,
      List.map_nil]
    norm_num [mkSR]
  refine ⟨by rw [hmn, hmx]; norm_num, by rw [hmn, hmx]; norm_num, hval, ?_⟩
  rw [hval]
  refine ⟨mkSR 1 (1/5), by simp, ?_⟩
  norm_num [mkSR]

/-- C3 amended: `normalize_results` assigns the flat confidence `0.6` exactly
when the raw similarity range is exactly zero, i.e. when all raw values are
equal — which includes every single-candidate pool; a nonzero range below
`1e-4` is min-max scaled like any other. -/
theorem normalize_results_range_zero_flat (r : SearchResult) (rs : List SearchResult)
    (heq : ∀ x ∈ r :: rs, x.confidence = r.confidence) :
    normalize_results (r :: rs) =
      some ((r :: rs).map (fun x => { x with confidence := 3/5 })) := by
  have hmn : poolMin (r :: rs) = r.confidence := by
    obtain ⟨x, hx, hxe⟩ := poolMin_attained r rs
    rw [← hxe]
    exact heq x hx
  have hmx : poolMax (r :: rs) = r.confidence := by
    obtain ⟨x, hx, hxe⟩ := poolMax_attained r rs
    rw [← hxe]
    exact heq x hx
  rw [normalize_results_cons]
  simp [hmn, hmx]

/-- C3 amended witness: a single-candidate pool (range zero by construction)
gets the flat confidence `0.6`. -/
theorem normalize_results_range_zero_flat_witness :
    (∀ x ∈ [mkSR 1 (1/2)], x.confidence = (mkSR 1 (1/2)).confidence) ∧
    normalize_results [mkSR 1 (1/2)] = some [mkSR 1 (3/5)] := by
  have heq : ∀ x ∈ [mkSR 1 (1/2)], x.confidence = (mkSR 1 (1/2)).confidence := by
    intro x hx
    rw [List.mem_singleton] at hx
    rw [hx]
  refine ⟨heq, ?_⟩
  rw [normalize_results_range_zero_flat (mkSR 1 (1/2)) [] heq]
  norm_num [mkSR]

/-- C10: on a pool with nonzero raw-score range, normalization is exactly the
elementwise application of the strictly monotone map `scaleConf`: the output
has the same length and element order as the input, every non-confidence field
is unchanged, and one normalized confidence exceeds another precisely when the
corresponding raw score did. -/
theorem normalize_results_order_preserving (r : SearchResult) (rs : List SearchResult)
    (hlt : poolMin (r :: rs) < poolMax (r :: rs)) :
    normalize_results (r :: rs) = some (scaledPool r rs) ∧
    (scaledPool r rs).length = (r :: rs).length ∧
    (scaledPool r rs).map (fun y => y.toSource) = (r :: rs).map (fun x => x.toSource) ∧
    (∀ s t : ℚ, scaleConf (poolMin (r :: rs)) (poolMax (r :: rs)) s <
      scaleConf (poolMin (r :: rs)) (poolMax (r :: rs)) t ↔ s < t) := by
  have hne : poolMax (r :: rs) - poolMin (r :: rs) ≠ 0 :=
    sub_ne_zero_of_ne (ne_of_gt hlt)
  refine ⟨normalize_results_scaled r rs hne, by simp [scaledPool], ?_,
    fun s t => scaleConf_lt_iff _ _ hlt s t⟩
  simp [scaledPool, List.map_map]
  exact ⟨rfl, fun a _ => rfl⟩

/-- C10 witness: the order-preservation theorem applied to the concrete pool
with raw scores `0` and `1`. -/
theorem normalize_results_order_preserving_witness :
    poolMin [mkSR 1 0, mkSR 2 1] < poolMax [mkSR 1 0, mkSR 2 1] ∧
    normalize_results [mkSR 1 0, mkSR 2 1] = some (scaledPool (mkSR 1 0) [mkSR 2 1]) := by
  have hlt : poolMin [mkSR 1 0, mkSR 2 1] < poolMax [mkSR 1 0, mkSR 2 1] := by decide
  exact ⟨hlt, (normalize_results_order_preserving (mkSR 1 0) [mkSR 2 1] hlt).1⟩

/-! ### The search pipeline: sort order (C4) and the empty-pool crash (C5) -/

/-- Normalization keeps the candidate ids in their positions: whichever branch
is taken, the output is an elementwise confidence update of the input, so a
strictly increasing id sequence stays strictly increasing. -/
theorem normalize_results_pairwise_id (l nr : List SearchResult)
    (h : normalize_results l = some nr)
    (hl : l.Pairwise (fun a b => a.id < b.id)) :
    nr.Pairwise (fun a b => a.id < b.id) := by
  cases l with
  | nil => simp [normalize_results] at h
  | cons r rs =>
    rw [normalize_results_cons] at h
    rw [← Option.some.inj h, List.pairwise_map]
    refine hl.imp ?_
    intro a b hab
    by_cases hc : poolMax (r :: rs) - poolMin (r :: rs) = 0 <;> simp [hc] <;> exact hab

/-- C4: every result list the search returns is pairwise ordered by
non-increasing confidence, and results of equal confidence appear in
non-decreasing catalog-id order.  The hypothesis that the stored sources have
strictly increasing ids holds by construction (`SpaceDB.__init__` assigns
`enumerate(..., start=1)` indices), and the candidate order is the list order
of `_sources` — no map iteration is involved, so the output is a function of
the inputs alone. -/
theorem search_sorted (conf : Emb → ℚ) (sources : List SourceE) (query : String)
    (limit : ℕ) (hids : sources.Pairwise (fun a b => a.src.id < b.src.id))
    (res : List SearchResult) (hres : search conf sources query limit = some res) :
    res.Pairwise (fun a b =>
      b.confidence ≤ a.confidence ∧ (a.confidence = b.confidence → a.id ≤ b.id)) := by
  unfold search at hres
  by_cases hq : queryIsBlank query = true
  · rw [if_pos hq] at hres
    rw [← Option.some.inj hres]
    exact List.Pairwise.nil
  · rw [if_neg hq] at hres
    cases hnorm : normalize_results (searchCandidates conf sources) with
    | none => rw [hnorm] at hres; exact absurd hres (by simp)
    | some nr =>
      rw [hnorm, Option.map_some'] at hres
      have hcand : (searchCandidates conf sources).Pairwise (fun a b => a.id < b.id) := by
        unfold searchCandidates
        rw [List.pairwise_filterMap]
        refine hids.imp ?_
        intro a b hab x hx y hy
        rw [Option.mem_def, Option.map_eq_some'] at hx hy
        obtain ⟨e1, -, rfl⟩ := hx
        obtain ⟨e2, -, rfl⟩ := hy
        exact hab
      have hnr := normalize_results_pairwise_id _ _ hnorm hcand
      have hs := stableSortDesc_pairwise (fun x : SearchResult => x.confidence)
        (fun x => x.id) nr hnr
      rw [← Option.some.inj hres]
      refine List.Pairwise.imp ?_ (List.Pairwise.sublist (List.take_sublist _ _) hs)
      intro a b hab
      rcases hab with h1 | h2
      · have h1b : b.confidence < a.confidence := h1
        exact ⟨le_of_lt h1b, fun heq => (lt_irrefl _ (heq ▸ h1b)).elim⟩
      · have h2b : a.confidence = b.confidence := h2.1
        exact ⟨le_of_eq h2b.symm, fun _ => le_of_lt h2.2⟩

/-- C4 witness: a concrete search over two embedded sources with equal raw
scores; the returned page is sorted and the tie is in ascending id order. -/
theorem search_sorted_witness :
    ([wSE 1 [50], wSE 2 [50]].Pairwise (fun a b => a.src.id < b.src.id)) ∧
    search wConf [wSE 1 [50], wSE 2 [50]] "q" 15 =
      some [mkSR 1 (3/5), mkSR 2 (3/5)] ∧
    ([mkSR 1 (3/5), mkSR 2 (3/5)] : List SearchResult).Pairwise (fun a b =>
      b.confidence ≤ a.confidence ∧ (a.confidence = b.confidence → a.id ≤ b.id)) := by
  have hids : [wSE 1 [50], wSE 2 [50]].Pairwise (fun a b => a.src.id < b.src.id) := by
    decide
  have hcand : searchCandidates wConf [wSE 1 [50], wSE 2 [50]] =
      [mkSR 1 50, mkSR 2 50] := rfl
  have hnorm : normalize_results [mkSR 1 50, mkSR 2 50] =
      some [mkSR 1 (3/5), mkSR 2 (3/5)] := by
    rw [normalize_results_cons]
    norm_num [poolMin, poolMax, listMin, listMax, mkSR]
  have hsort : stableSortDesc (fun x : SearchResult => x.confidence)
      [mkSR 1 (3/5), mkSR 2 (3/5)] = [mkSR 1 (3/5), mkSR 2 (3/5)] := by
    simp only [stableSortDesc, List.foldl_cons, List.foldl_nil, insDesc]
    rw [if_neg (by norm_num [mkSR])]
  have hres : search wConf [wSE 1 [50], wSE 2 [50]] "q" 15 =
      some [mkSR 1 (3/5), mkSR 2 (3/5)] := by
    unfold search
    rw [if_neg (by decide), hcand, hnorm, Option.map_some', hsort]
    rfl
  exact ⟨hids, hres, search_sorted wConf [wSE 1 [50], wSE 2 [50]] "q" 15 hids _ hres⟩

/-- C5 (code bug): on a non-blank query with zero embedded candidates, the
spec requires an empty result list, but `search` feeds the empty pool into
`normalize_results`, whose `min(confidence_values)` raises `ValueError` on an
empty sequence — modelled by `none` — instead of returning `some []`. -/
theorem search_empty_pool_raises :
    queryIsBlank "moon mission" = false ∧
    searchCandidates wConf [sourceNoEmb] = [] ∧
    search wConf [sourceNoEmb] "moon mission" 15 = none ∧
    search wConf [sourceNoEmb] "moon mission" 15 ≠ some [] := by
  have hq : queryIsBlank "moon mission" = false := by decide
  have hnone : search wConf [sourceNoEmb] "moon mission" 15 = none := by
    unfold search
    rw [if_neg (by decide)]
    rfl
  exact ⟨hq, rfl, hnone, by rw [hnone]; exact fun h => Option.noConfusion h⟩

/-! ### The history listing: ordering (C6) and pagination (C7) -/

/-- C6 counterexample: two records with the same `time_searched`, `recA`
inserted before `recB`.  `get_history` returns them with the EARLIEST inserted
first (`["a", "b"]`): Python `sorted(..., reverse=True)` is stable and keeps
equal-key elements in list order, so the claimed most-recently-inserted-first
tie order (`["b", "a"]`) does not hold. -/
theorem get_history_tie_counterexample :
    recA.time_searched = recB.time_searched ∧
    (get_history [] [recA, recB] 0 10).items.map (fun x => x.id) = ["a", "b"] ∧
    ¬ ((get_history [] [recA, recB] 0 10).items.map (fun x => x.id) = ["b", "a"]) := by
  have hcond : ¬ ((create_search_results_history_response [] recA).time_searched <
      (create_search_results_history_response [] recB).time_searched) := by
    have heq : (create_search_results_history_response [] recA).time_searched =
        (create_search_results_history_response [] recB).time_searched := rfl
    rw [heq]
    exact lt_irrefl _
  have hsort : stableSortDesc (fun x : SearchResultHistoryResponse => x.time_searched)
      [create_search_results_history_response [] recA,
        create_search_results_history_response [] recB] =
      [create_search_results_history_response [] recA,
        create_search_results_history_response [] recB] := by
    simp only [stableSortDesc, List.foldl_cons, List.foldl_nil, insDesc]
    rw [if_neg hcond]
  have hitems : (get_history [] [recA, recB] 0 10).items =
      [create_search_results_history_response [] recA,
        create_search_results_history_response [] recB] := by
    simp only [get_history, List.map_cons, List.map_nil]
    rw [hsort]
    rfl
  exact ⟨rfl, by rw [hitems]; rfl, by rw [hitems]; decide⟩

/-- C6 amended: `get_history` sorts all records by `time_searched` descending,
and among records with equal `time_searched` the EARLIEST inserted appears
first (the stable sort keeps insertion order).  `f` is any numbering of the
responses that increases along the insertion order of the store. -/
theorem get_history_sorted_desc (catalog : List Source)
    (store : List SearchResultHistory) (start_index limit : ℕ)
    (f : SearchResultHistoryResponse → ℕ)
    (hf : (store.map (create_search_results_history_response catalog)).Pairwise
      (fun a b => f a < f b)) :
    (get_history catalog store start_index limit).items.Pairwise (fun a b =>
      b.time_searched ≤ a.time_searched ∧
      (a.time_searched = b.time_searched → f a ≤ f b)) := by
  have hs := stableSortDesc_pairwise
    (fun x : SearchResultHistoryResponse => x.time_searched) f _ hf
  simp only [get_history]
  refine List.Pairwise.imp ?_
    (List.Pairwise.sublist ((List.take_sublist _ _).trans (List.drop_sublist _ _)) hs)
  intro a b hab
  rcases hab with h1 | h2
  · have h1b : b.time_searched < a.time_searched := h1
    exact ⟨le_of_lt h1b, fun heq => (lt_irrefl _ (heq ▸ h1b)).elim⟩
  · have h2b : a.time_searched = b.time_searched := h2.1
    exact ⟨le_of_eq h2b.symm, fun _ => le_of_lt h2.2⟩

/-- C6 amended witness: the ordering theorem applied to the concrete two-record
same-timestamp store, with the insertion numbering sending `recA` to 0 and
`recB` to 1. -/
theorem get_history_sorted_desc_witness :
    (([recA, recB].map (create_search_results_history_response [])).Pairwise
      (fun a b => wNum a < wNum b)) ∧
    (get_history [] [recA, recB] 0 10).items.Pairwise (fun a b =>
      b.time_searched ≤ a.time_searched ∧
      (a.time_searched = b.time_searched → wNum a ≤ wNum b)) :=
  ⟨by decide, get_history_sorted_desc [] [recA, recB] 0 10 wNum (by decide)⟩

/-- C7: `get_history` never returns more than `limit` items, its `total` field
is the full record count whatever the window is, and a `start_index` at or
beyond the record count yields an empty page rather than an error. -/
theorem get_history_pagination (catalog : List Source)
    (store : List SearchResultHistory) (start_index limit : ℕ)
    (_h1 : 1 ≤ limit) (_h2 : limit ≤ 100) :
    (get_history catalog store start_index limit).items.length ≤ limit ∧
    (get_history catalog store start_index limit).total = store.length ∧
    (store.length ≤ start_index →
      (get_history catalog store start_index limit).items = []) := by
  refine ⟨?_, rfl, ?_⟩
  · simp only [get_history]
    rw [List.length_take]
    exact min_le_left _ _
  · intro hsl
    simp only [get_history]
    have hlen : (stableSortDesc (fun x : SearchResultHistoryResponse => x.time_searched)
        (store.map (create_search_results_history_response catalog))).length =
        store.length := by
      rw [length_stableSortDesc, List.length_map]
    rw [List.drop_eq_nil_of_le (by rw [hlen]; exact hsl), List.take_nil]

/-- C7 witness: the pagination theorem at a concrete two-record store with
`start_index = 5` past the end and `limit = 2`. -/
theorem get_history_pagination_witness :
    (1 ≤ 2 ∧ 2 ≤ 100) ∧
    (get_history [] [recA, recB] 5 2).items.length ≤ 2 ∧
    (get_history [] [recA, recB] 5 2).total = 2 ∧
    ([recA, recB] : List SearchResultHistory).length ≤ 5 ∧
    (get_history [] [recA, recB] 5 2).items = [] := by
  have h := get_history_pagination [] [recA, recB] 5 2 (by norm_num) (by norm_num)
  exact ⟨⟨by norm_num, by norm_num⟩, h.1, h.2.1, by norm_num, h.2.2 (by norm_num)⟩

/-! ### Deletion semantics (C8) -/

/-- C8: deletion removes the record exactly when present and reports it: the
returned boolean is true iff some stored record has the requested id; an
absent id leaves the store unchanged and returns false without any error; a
second delete of the same id returns false; and after a delete the full-result
lookup of that id reports the not-found condition. -/
theorem delete_history_semantics (catalog : List Source)
    (store : List SearchResultHistory) (history_id : String) :
    ((delete_search_result_history store history_id).2 = true ↔
      ∃ item ∈ store, item.id = history_id) ∧
    ((¬ ∃ item ∈ store, item.id = history_id) →
      delete_search_result_history store history_id = (store, false)) ∧
    (delete_search_result_history
      (delete_search_result_history store history_id).1 history_id).2 = false ∧
    get_history_results catalog
      (delete_search_result_history store history_id).1 history_id =
      Except.error ("History item with ID " ++ history_id ++ " not found") := by
  have hrem : (delete_search_result_history store history_id).1 =
      store.filter (fun item => item.id ≠ history_id) := rfl
  have hmem : ∀ x ∈ (delete_search_result_history store history_id).1,
      ¬ x.id = history_id := by
    intro x hx
    rw [hrem, List.mem_filter] at hx
    simpa using hx.2
  have hfil2 : (delete_search_result_history store history_id).1.filter
      (fun item => item.id ≠ history_id) =
      (delete_search_result_history store history_id).1 :=
    List.filter_eq_self.mpr (fun a ha => by simpa using hmem a ha)
  refine ⟨?_, ?_, ?_, ?_⟩
  · show decide ((store.filter (fun item => item.id ≠ history_id)).length <
      store.length) = true ↔ _
    rw [decide_eq_true_iff, List.length_filter_lt_length_iff_exists]
    simp
  · intro hno
    have hall : store.filter (fun item => item.id ≠ history_id) = store :=
      List.filter_eq_self.mpr (fun a ha => by
        simp only [decide_not, Bool.not_eq_eq_eq_not, Bool.not_true, decide_eq_false_iff_not]
        exact fun he => hno ⟨a, ha, he⟩)
    show (store.filter (fun item => item.id ≠ history_id),
      decide ((store.filter (fun item => item.id ≠ history_id)).length <
        store.length)) = (store, false)
    rw [hall]
    simp
  · show decide (((delete_search_result_history store history_id).1.filter
      (fun item => item.id ≠ history_id)).length <
      (delete_search_result_history store history_id).1.length) = false
    rw [hfil2]
    simp
  · have hfind : (delete_search_result_history store history_id).1.find?
        (fun item => item.id = history_id) = none :=
      List.find?_eq_none.mpr (fun x hx => by simpa using hmem x hx)
    unfold get_history_results
    rw [hfind]

/-- C8 witness: deleting the only record of a one-record store reports a
removal, and both the repeated delete and the subsequent lookup observe the
absence. -/
theorem delete_history_semantics_witness :
    (delete_search_result_history [recA] "a").2 = true ∧
    (¬ ∃ item ∈ ([recA] : List SearchResultHistory), item.id = "b") ∧
    delete_search_result_history [recA] "b" = ([recA], false) ∧
    (delete_search_result_history
      (delete_search_result_history [recA] "a").1 "a").2 = false ∧
    get_history_results [] (delete_search_result_history [recA] "a").1 "a" =
      Except.error ("History item with ID " ++ "a" ++ " not found") := by
  have hb : ¬ ∃ item ∈ ([recA] : List SearchResultHistory), item.id = "b" := by
    decide
  refine ⟨?_, hb, ?_, ?_, ?_⟩
  · exact (delete_history_semantics [] [recA] "a").1.mpr
      ⟨recA, List.mem_singleton.mpr rfl, rfl⟩
  · exact (delete_history_semantics [] [recA] "b").2.1 hb
  · exact (delete_history_semantics [] [recA] "a").2.2.1
  · exact (delete_history_semantics [] [recA] "a").2.2.2

/-! ### History round-trip (C2) -/

/-- The `(id, confidence)` pairs of a reconstruction are exactly the stored
pairs whose id resolves in the catalog, in stored order: a resolved pair is
rebuilt with the id it was looked up under and its stored confidence, and an
unresolved pair is skipped. -/
theorem reconstruct_pairs (catalog : List Source) (data : List (ℕ × ℚ)) :
    (reconstruct_search_results catalog data).map (fun r => (r.id, r.confidence)) =
      data.filter (fun p => catalog.any (fun s => s.id = p.1)) := by
  induction data with
  | nil => rfl
  | cons p ps ih =>
    unfold reconstruct_search_results at ih ⊢
    rw [List.filterMap_cons]
    cases hfind : get_source_by_id catalog p.1 with
    | none =>
      have hnone : ∀ x ∈ catalog, ¬ x.id = p.1 := by
        intro x hx
        unfold get_source_by_id at hfind
        simpa using List.find?_eq_none.mp hfind x hx
      have hany : (catalog.any (fun s => s.id = p.1)) = false := by
        rw [Bool.eq_false_iff, Ne, List.any_eq_true]
        rintro ⟨x, hx, hxe⟩
        exact hnone x hx (by simpa using hxe)
      simp [hfind, List.filter_cons, hany, ih]
    | some s =>
      have hid : s.id = p.1 := by
        unfold get_source_by_id at hfind
        simpa using List.find?_some hfind
      have hany : (catalog.any (fun s => s.id = p.1)) = true := by
        rw [List.any_eq_true]
        refine ⟨s, ?_, by simpa using hid⟩
        unfold get_source_by_id at hfind
        exact List.mem_of_find?_eq_some hfind
      simp [hfind, List.filter_cons, hany, ih, hid]

/-- C2: after `Add` appends a record with a fresh id holding the
`(id, confidence)` pairs of the ENTIRE results list, `GetFullResults` on that
id succeeds and returns results whose `(id, confidence)` pairs are exactly the
pairs of the results passed to `Add`, in the original order, restricted to the
item ids still present in the catalog. -/
theorem add_get_history_results_roundtrip (catalog : List Source)
    (store : List SearchResultHistory) (fresh_id now q : String)
    (res : List SearchResult) (_hne : res ≠ [])
    (hfresh : ∀ item ∈ store, item.id ≠ fresh_id) :
    ∃ full, get_history_results catalog
        (add_search_result_history store fresh_id now q res) fresh_id =
        Except.ok full ∧
      full.map (fun r => (r.id, r.confidence)) =
        (res.map (fun r => (r.id, r.confidence))).filter
          (fun p => catalog.any (fun s => s.id = p.1)) := by
  have hfind : (add_search_result_history store fresh_id now q res).find?
      (fun item => item.id = fresh_id) =
      some { id := fresh_id, query := q, time_searched := now,
             all_search_results := res.map (fun r => (r.id, r.confidence)) } := by
    unfold add_search_result_history
    rw [List.find?_append]
    have h1 : store.find? (fun item => item.id = fresh_id) = none :=
      List.find?_eq_none.mpr (fun x hx => by simpa using hfresh x hx)
    rw [h1]
    simp
  refine ⟨reconstruct_search_results catalog
    (res.map (fun r => (r.id, r.confidence))), ?_, reconstruct_pairs catalog _⟩
  unfold get_history_results
  rw [hfind]

/-- C2 witness: store three results with ids 1, 2, 3 against a catalog holding
only ids 1 and 3; the full-result lookup succeeds and returns exactly the
stored pairs for ids 1 and 3, in order. -/
theorem add_get_history_results_roundtrip_witness :
    ([mkSR 1 (1/2), mkSR 2 (1/3), mkSR 3 (1/4)] : List SearchResult) ≠ [] ∧
    (∀ item ∈ ([] : List SearchResultHistory), item.id ≠ "h1") ∧
    ∃ full, get_history_results wCatalog
        (add_search_result_history [] "h1" "2024-01-01T00:00:00Z" "q"
          [mkSR 1 (1/2), mkSR 2 (1/3), mkSR 3 (1/4)]) "h1" =
        Except.ok full ∧
      full.map (fun r => (r.id, r.confidence)) =
        ([mkSR 1 (1/2), mkSR 2 (1/3), mkSR 3 (1/4)].map
          (fun r => (r.id, r.confidence))).filter
          (fun p => wCatalog.any (fun s => s.id = p.1)) := by
  refine ⟨by simp, by simp, ?_⟩
  exact add_get_history_results_roundtrip wCatalog [] "h1" "2024-01-01T00:00:00Z"
    "q" [mkSR 1 (1/2), mkSR 2 (1/3), mkSR 3 (1/4)] (by simp) (by simp)

/-! ### Catalog construction under embedding failure (C9) -/

/-- C9 (code bug): a feed of five items in which the third has no image link.
`get_image_embedding` has no exception handling: `requests.get(None)` (or a
network/decode failure) raises, the exception propagates through
`process_one_source` into `SpaceDB.__init__`, and catalog construction aborts
— so `GetAll` cannot return the five items the claim (and spec section 6)
requires; the item is never stored without an embedding. -/
theorem build_sources_crash_on_missing_image :
    rawItemsFive.length = 5 ∧
    find_image_url rawNoImage.links = none ∧
    build_sources fetchOk [] rawItemsFive = Except.error () ∧
    ∀ sources, build_sources fetchOk [] rawItemsFive ≠ Except.ok sources := by
  refine ⟨rfl, rfl, rfl, ?_⟩
  intro sources h
  rw [show build_sources fetchOk [] rawItemsFive = Except.error () from rfl] at h
  exact Except.noConfusion h

end Conntour
